import Mathlib

/-!
# Verification of the goma-server redis cache client

Shallow embedding of `cache/redis/client.go` and `cache/redis/fake_redis.go`:
the error classifier (`retryErr`, `isConnError`), the `Get`/`Put` operations
with their retry loop, the admission-semaphore / connection-pool interaction
(`poolGetContext`, `activeConn.Close`) as a small-step transition system, and
the fake redis server's request parser (`readRequest`).

Errors are modelled by an inductive type `GoErr` covering the Go error shapes
this code inspects: the `redis.ErrNil` sentinel, `syscall.Errno` values,
`*os.SyscallError` and `*net.OpError` wrappers, errors exposing a
`Temporary() bool` method, and other opaque errors.  The dynamic capability
checks (`err.(temporary)`) and `errors.Is` unwrapping are modelled after the
Go standard library method sets for these types (linux/amd64 errno numbers).
-/

namespace GomaRedis

/-! ## Errno constants (linux/amd64) -/

def EINTR : Nat := 4
def EAGAIN : Nat := 11
def EWOULDBLOCK : Nat := 11
def ENFILE : Nat := 23
def EMFILE : Nat := 24
def ECONNABORTED : Nat := 103
def ECONNRESET : Nat := 104
def ETIMEDOUT : Nat := 110

/-- Go error values, restricted to the shapes inspected by `client.go`:
`redis.ErrNil`, `syscall.Errno`, `*os.SyscallError` (wrapping an inner error),
`*net.OpError` (wrapping an inner error), an error whose dynamic type exposes
`Temporary() bool`, and any other error. -/
inductive GoErr where
  | errNil : GoErr
  | errno (n : Nat) : GoErr
  | syscallError (sysName : String) (err : GoErr) : GoErr
  | opError (op : String) (err : GoErr) : GoErr
  | tempErr (isTemp : Bool) (msg : String) : GoErr
  | otherErr (msg : String) : GoErr
deriving DecidableEq

/-- `syscall.Errno.Timeout`: `e == EAGAIN || e == EWOULDBLOCK || e == ETIMEDOUT`. -/
def errnoTimeout (n : Nat) : Bool :=
  n = EAGAIN || n = EWOULDBLOCK || n = ETIMEDOUT

/-- `syscall.Errno.Temporary`: `e == EINTR || e == EMFILE || e == ENFILE || e.Timeout()`. -/
def errnoTemporary (n : Nat) : Bool :=
  n = EINTR || n = EMFILE || n = ENFILE || errnoTimeout n

/-- The dynamic type assertion `err.(temporary)` followed by `Temporary()`:
`none` when the dynamic type has no `Temporary() bool` method, otherwise
`some` of its result.  `syscall.Errno`, `*os.SyscallError` and `*net.OpError`
implement it in the Go standard library; `*os.SyscallError.Temporary` consults
its wrapped error, and `*net.OpError.Temporary` consults its wrapped error,
skipping one `*os.SyscallError` layer if present. -/
def temporaryCap : GoErr → Option Bool
  | .errno n => some (errnoTemporary n)
  | .syscallError _ err => some ((temporaryCap err).getD false)
  | .opError _ err =>
    match err with
    | .syscallError _ inner => some ((temporaryCap inner).getD false)
    | e => some ((temporaryCap e).getD false)
  | .tempErr b _ => some b
  | .errNil => none
  | .otherErr _ => none

/-- `errors.Is(err, redis.ErrNil)`: walks the `Unwrap` chain
(`*os.SyscallError` and `*net.OpError` unwrap to their inner error;
the other shapes do not unwrap) and compares with the sentinel. -/
def errorsIsNil : GoErr → Bool
  | .errNil => true
  | .syscallError _ err => errorsIsNil err
  | .opError _ err => errorsIsNil err
  | _ => false

/-- `err.Error()` message strings (content immaterial to the claims). -/
def errorString : GoErr → String
  | .errNil => "redigo: nil returned"
  | .errno n => "errno " ++ toString n
  | .syscallError sysName err => sysName ++ ": " ++ errorString err
  | .opError op err => op ++ ": " ++ errorString err
  | .tempErr _ msg => msg
  | .otherErr msg => msg

/-- `isConnError` from `client.go`: true iff `err` is a `syscall.Errno`, or an
`*os.SyscallError` whose wrapped error is a `syscall.Errno`, equal to
`ECONNRESET` or `ECONNABORTED`. -/
def isConnError (err : GoErr) : Bool :=
  match err with
  | .errno n => n = ECONNRESET || n = ECONNABORTED
  | .syscallError _ (.errno n) => n = ECONNRESET || n = ECONNABORTED
  | _ => false

/-- Result of `retryErr`: the `status.Error(codes.NotFound, ...)` sentinel, an
`rpc.RetriableError` wrapping the original error, or the original error value
returned unchanged. -/
inductive RErr where
  | notFound (msg : String)
  | retriable (err : GoErr)
  | asIs (err : GoErr)
deriving DecidableEq

/-- `retryErr` from `client.go`: `redis.ErrNil` becomes gRPC `NotFound`;
errors whose `Temporary()` capability reports true become `RetriableError`;
a `*net.OpError` whose inner error is a connection-reset/aborted errno
(one `*os.SyscallError` unwrap allowed) becomes `RetriableError`;
everything else is returned as is. -/
def retryErr (err : GoErr) : RErr :=
  if errorsIsNil err then .notFound (errorString err)
  else if (temporaryCap err).getD false then .retriable err
  else
    match err with
    | .opError op inner =>
      if isConnError inner then .retriable (.opError op inner) else .asIs (.opError op inner)
    | e => .asIs e

/-! ## Fake redis server request parser (`fake_redis.go`)

A line is the byte sequence returned by one `bufio.Reader.ReadLine` call,
terminator stripped; the input stream is the list of remaining lines, the
empty list meaning end of input.  Byte 42 is the character star, byte 36 the
dollar sign, byte 10 the newline used to join the accumulated request. -/

/-- Accumulate decimal digit bytes; `none` on any non-digit byte. -/
def digitsValAux : List Nat → Nat → Option Nat
  | [], acc => some acc
  | b :: rest, acc =>
    if 48 ≤ b ∧ b ≤ 57 then digitsValAux rest (acc * 10 + (b - 48)) else none

/-- `strconv.Atoi` on a byte-string: optional sign, then decimal digits;
`none` on the empty string or any non-digit. -/
def goAtoi (s : List Nat) : Option Int :=
  match s with
  | [] => none
  | 43 :: rest =>
    match rest with
    | [] => none
    | _ => (digitsValAux rest 0).map (fun n => (n : Int))
  | 45 :: rest =>
    match rest with
    | [] => none
    | _ => (digitsValAux rest 0).map (fun n => -(n : Int))
  | _ => (digitsValAux s 0).map (fun n => (n : Int))

/-- Errors produced by `readRequest`: `ReadLine` failure (end of input),
`fmt.Errorf("wrong array ...")`, `fmt.Errorf("wrong bytes ...")`, and
`fmt.Errorf("unexpected value sz=%d v=%q")`. -/
inductive ReadErr where
  | eof
  | wrongArray (line : List Nat)
  | wrongBytes (line : List Nat)
  | sizeMismatch (sz : Int) (value : List Nat)
deriving DecidableEq

/-- The `([]byte, error)` pair returned by `readRequest`, together with the
lines left unconsumed in the reader. -/
structure ReqResult where
  line : List Nat
  err : Option ReadErr
  rest : List (List Nat)
deriving DecidableEq

/-- The element loop of `readRequest`: `n` iterations, each reading one line;
if that line has the dollar prefix, parse its declared size, read the value
line, and fail on a size mismatch. -/
def readBulkElems : List (List Nat) → List Nat → Nat → ReqResult
  | rest, line, 0 => ⟨line, none, rest⟩
  | [], line, _ + 1 => ⟨line, some .eof, []⟩
  | nline :: rest, line, n + 1 =>
    let line2 := line ++ 10 :: nline
    if nline.head? = some 36 then
      match goAtoi nline.tail with
      | none => ⟨line2, some (.wrongBytes nline), rest⟩
      | some sz =>
        match rest with
        | [] => ⟨line2, some .eof, []⟩
        | v :: rest2 =>
          let line3 := line2 ++ 10 :: v
          if sz = (v.length : Int) then readBulkElems rest2 line3 n
          else ⟨line3, some (.sizeMismatch sz v), rest2⟩
    else readBulkElems rest line2 n

/-- `readRequest` from `fake_redis.go`: read one line; if it does not start
with the star byte, return it as is with no error; otherwise parse the
declared element count and run the element loop. -/
def readRequest : List (List Nat) → ReqResult
  | [] => ⟨[], some .eof, []⟩
  | nline :: rest =>
    if nline.head? = some 42 then
      match goAtoi nline.tail with
      | none => ⟨nline, some (.wrongArray nline), rest⟩
      | some n => readBulkElems rest nline n.toNat
    else ⟨nline, none, rest⟩

/-! ## Functional model of `Client.Get` / `Client.Put`

`conn.Do` is modelled by a `respond` oracle giving, for each command and each
attempt index, either the reply bytes or a Go error (`redis.ErrNil` for an
absent key, as produced by `redis.Bytes`).  The caller's context is modelled
by a budget of backoff sleeps the context survives before its deadline fires.
The outcome of `poolGetContext` is supplied as a `LeaseResult` (its internals
are verified separately by the transition system below). -/

/-- Request/response messages of `proto/cache` used by `Get`/`Put`. -/
structure KV where
  key : String
  value : List Nat
deriving DecidableEq

structure GetReq where
  key : String
deriving DecidableEq

structure GetResp where
  kv : KV
  inMemory : Bool
deriving DecidableEq

structure PutReq where
  kv : KV
deriving DecidableEq

inductive PutResp where
  | mk
deriving DecidableEq

/-- A redis command as sent by `conn.Do`: verb plus arguments. -/
inductive RedisCmd where
  | get (key : String)
  | set (key : String) (value : List Nat)
deriving DecidableEq

/-- Cache client; only the key prefix matters for the functional model. -/
structure Client where
  keyPrefix : String
deriving DecidableEq

/-- Outcome of `poolGetContext` as seen by `Get`/`Put`: a connection, the
context's error (the `ctx.Done()` select branch), or the error of
`pool.GetContext` returned unchanged. -/
inductive LeaseResult where
  | ok
  | ctxErr
  | poolErr (e : GoErr)
deriving DecidableEq

/-- Whether the classifier wrapped the error as `rpc.RetriableError`. -/
def isRetriable : RErr → Bool
  | .retriable _ => true
  | _ => false

/-- Failure of the retry loop as a whole. -/
inductive RetryFail where
  | ctxDone
  | failed (e : RErr)
deriving DecidableEq

/-- Modelled from the spec: the Retry Driver (`rpc.Retry{MaxRetry: -1}.Do`,
whose implementation is outside the provided sources).  Per spec section 4.5:
invoke the operation; on nil succeed; on a `Fatal`/`NotFound` error stop and
propagate immediately; on a `Retriable` error apply a backoff delay and try
again, unless the caller's context is done, in which case stop and propagate
the context's error.  `fuel` is the number of backoff sleeps the context
survives; attempts are otherwise unlimited (`MaxRetry = -1`). -/
def retryDo {α : Type} (op : Nat → Except RErr α) : Nat → Nat → Except RetryFail α
  | i, 0 =>
    match op i with
    | .ok v => .ok v
    | .error e => if isRetriable e then .error .ctxDone else .error (.failed e)
  | i, fuel + 1 =>
    match op i with
    | .ok v => .ok v
    | .error e => if isRetriable e then retryDo op (i + 1) fuel else .error (.failed e)

/-- An error as surfaced to the caller of `Get`/`Put`: the context's error,
an error of `pool.GetContext` returned unchanged, or the classifier output of
the failing attempt at which the retry loop stopped. -/
inductive CErr where
  | ctxCanceled
  | leaseErr (e : GoErr)
  | classified (e : RErr)
deriving DecidableEq

/-- `Client.Get`: acquire a connection via `poolGetContext`; inside the retry
loop run `redis.Bytes(conn.Do("GET", c.prefix+in.Key))` and classify the
error with `retryErr`; on success return the un-prefixed key, the reply bytes
and `InMemory: true`. -/
def Client.Get (c : Client) (inp : GetReq) (lease : LeaseResult)
    (respond : RedisCmd → Nat → Except GoErr (List Nat)) (ctxBudget : Nat) :
    Except CErr GetResp :=
  match lease with
  | .ctxErr => .error .ctxCanceled
  | .poolErr e => .error (.leaseErr e)
  | .ok =>
    match retryDo (fun i =>
        match respond (.get (c.keyPrefix ++ inp.key)) i with
        | .ok v => .ok v
        | .error e => .error (retryErr e)) 0 ctxBudget with
    | .ok v => .ok ⟨⟨inp.key, v⟩, true⟩
    | .error .ctxDone => .error .ctxCanceled
    | .error (.failed e) => .error (.classified e)

/-- `Client.Put`: same shape as `Get`, issuing
`conn.Do("SET", c.prefix+in.Kv.Key, in.Kv.Value)` and discarding the reply. -/
def Client.Put (c : Client) (inp : PutReq) (lease : LeaseResult)
    (respond : RedisCmd → Nat → Except GoErr (List Nat)) (ctxBudget : Nat) :
    Except CErr PutResp :=
  match lease with
  | .ctxErr => .error .ctxCanceled
  | .poolErr e => .error (.leaseErr e)
  | .ok =>
    match retryDo (fun i =>
        match respond (.set (c.keyPrefix ++ inp.kv.key) inp.kv.value) i with
        | .ok _ => .ok ()
        | .error e => .error (retryErr e)) 0 ctxBudget with
    | .ok _ => .ok .mk
    | .error .ctxDone => .error .ctxCanceled
    | .error (.failed e) => .error (.classified e)

/-! ## Transition system for the admission semaphore

One thread per in-flight `Get`/`Put` call.  The thread's phase records the
program point inside `poolGetContext` / the operation body /
`activeConn.Close`:

* `start`       — blocked at the `select` in `poolGetContext`;
* `gotSlot`     — sent on `c.sema`, about to call `c.pool.GetContext`;
* `leaseFailed` — `pool.GetContext` returned an error, about to do `<-c.sema`;
* `working`     — holds an `activeConn`; the operation body (retry loop) runs;
* `slotFreed`   — inside `activeConn.Close`, after `<-c.c.sema`, before
                  `c.Conn.Close()`;
* `finished o`  — the call returned with outcome `o`.

`sema` is `len(c.sema)`, the number of buffered items in the semaphore
channel of capacity `maxActive`; a send is enabled only while
`sema < maxActive` (Go buffered-channel semantics), which is exactly the
admission gate. The `ctx.Done()` select branch may fire nondeterministically
at `start`; `pool.GetContext` may nondeterministically succeed or fail. -/

/-- Exit path of one `Get`/`Put` call. -/
inductive Outcome where
  | completed
  | ctxCancel
  | leaseFail
deriving DecidableEq

/-- Program point of one thread. -/
inductive Phase where
  | start
  | gotSlot
  | leaseFailed
  | working
  | slotFreed
  | finished (o : Outcome)
deriving DecidableEq

/-- Global state: the semaphore occupancy, its capacity
(`Opts.MaxActiveConns`), and each thread's phase. -/
structure SimState where
  maxActive : Nat
  sema : Nat
  threads : List Phase
deriving DecidableEq

/-- Atomic events, each corresponding to one line of `client.go`:
`acquireSlot` = `c.sema <- struct{}{}`; `ctxDone` = the `<-ctx.Done()`
branch returning `ctx.Err()`; `leaseOk` / `leaseErr` = `pool.GetContext`
returning a connection / an error; `leaseErrRelease` = the `<-c.sema` before
returning the pool error; `releaseSlot` = `<-c.c.sema` in `activeConn.Close`;
`connClose` = `c.Conn.Close()` returning the connection to the pool. -/
inductive Ev where
  | acquireSlot (t : Nat)
  | ctxDone (t : Nat)
  | leaseOk (t : Nat)
  | leaseErr (t : Nat)
  | leaseErrRelease (t : Nat)
  | releaseSlot (t : Nat)
  | connClose (t : Nat)
deriving DecidableEq

/-- One interleaving step; `none` when the event is not enabled. -/
def step (s : SimState) (e : Ev) : Option SimState :=
  match e with
  | .acquireSlot t =>
    match s.threads.get? t with
    | some .start =>
      if s.sema < s.maxActive then
        some { s with sema := s.sema + 1, threads := s.threads.set t .gotSlot }
      else none
    | _ => none
  | .ctxDone t =>
    match s.threads.get? t with
    | some .start => some { s with threads := s.threads.set t (.finished .ctxCancel) }
    | _ => none
  | .leaseOk t =>
    match s.threads.get? t with
    | some .gotSlot => some { s with threads := s.threads.set t .working }
    | _ => none
  | .leaseErr t =>
    match s.threads.get? t with
    | some .gotSlot => some { s with threads := s.threads.set t .leaseFailed }
    | _ => none
  | .leaseErrRelease t =>
    match s.threads.get? t with
    | some .leaseFailed =>
      some { s with sema := s.sema - 1, threads := s.threads.set t (.finished .leaseFail) }
    | _ => none
  | .releaseSlot t =>
    match s.threads.get? t with
    | some .working =>
      some { s with sema := s.sema - 1, threads := s.threads.set t .slotFreed }
    | _ => none
  | .connClose t =>
    match s.threads.get? t with
    | some .slotFreed => some { s with threads := s.threads.set t (.finished .completed) }
    | _ => none

/-- Run a trace of events from a state. -/
def run (s : SimState) : List Ev → Option SimState
  | [] => some s
  | e :: tr => (step s e).bind (fun s1 => run s1 tr)

/-- Initial state: `n` calls about to enter `poolGetContext` on a client built
with `MaxActiveConns = m`; the semaphore channel is empty. -/
def initState (m n : Nat) : SimState :=
  ⟨m, 0, List.replicate n .start⟩

/-- A thread in these phases has passed the admission gate and not yet
released its slot. -/
def holdsSlot : Phase → Bool
  | .gotSlot => true
  | .leaseFailed => true
  | .working => true
  | _ => false

/-- Number of threads currently holding an admission slot. -/
def countHold : List Phase → Nat
  | [] => 0
  | p :: l => (if holdsSlot p then 1 else 0) + countHold l

/-- Number of occurrences of an event in a trace. -/
def countEv (e : Ev) : List Ev → Nat
  | [] => 0
  | x :: tr => (if x = e then 1 else 0) + countEv e tr

/-- Per-thread event counts. -/
structure TCounts where
  acq : Nat
  ctxd : Nat
  lok : Nat
  lerr : Nat
  lrel : Nat
  srel : Nat
  cclose : Nat
deriving DecidableEq

/-- The event counts of thread `t` in trace `tr`. -/
def countsOf (tr : List Ev) (t : Nat) : TCounts :=
  ⟨countEv (.acquireSlot t) tr, countEv (.ctxDone t) tr, countEv (.leaseOk t) tr,
   countEv (.leaseErr t) tr, countEv (.leaseErrRelease t) tr,
   countEv (.releaseSlot t) tr, countEv (.connClose t) tr⟩

/-- The event counts a thread must have accumulated to be at a given phase. -/
def phaseCounts : Phase → TCounts
  | .start => ⟨0, 0, 0, 0, 0, 0, 0⟩
  | .gotSlot => ⟨1, 0, 0, 0, 0, 0, 0⟩
  | .leaseFailed => ⟨1, 0, 0, 1, 0, 0, 0⟩
  | .working => ⟨1, 0, 1, 0, 0, 0, 0⟩
  | .slotFreed => ⟨1, 0, 1, 0, 0, 1, 0⟩
  | .finished .ctxCancel => ⟨0, 1, 0, 0, 0, 0, 0⟩
  | .finished .leaseFail => ⟨1, 0, 0, 1, 1, 0, 0⟩
  | .finished .completed => ⟨1, 0, 1, 0, 0, 1, 1⟩

/-- The thread an event belongs to. -/
def evThread : Ev → Nat
  | .acquireSlot t => t
  | .ctxDone t => t
  | .leaseOk t => t
  | .leaseErr t => t
  | .leaseErrRelease t => t
  | .releaseSlot t => t
  | .connClose t => t

/-- Increment the count field corresponding to an event's kind. -/
def bump : Ev → TCounts → TCounts
  | .acquireSlot _, c => { c with acq := c.acq + 1 }
  | .ctxDone _, c => { c with ctxd := c.ctxd + 1 }
  | .leaseOk _, c => { c with lok := c.lok + 1 }
  | .leaseErr _, c => { c with lerr := c.lerr + 1 }
  | .leaseErrRelease _, c => { c with lrel := c.lrel + 1 }
  | .releaseSlot _, c => { c with srel := c.srel + 1 }
  | .connClose _, c => { c with cclose := c.cclose + 1 }

/-- Per-thread counts agree with each thread's phase (threads beyond the list
are treated as never started, phase `start`). -/
def MInv (tr : List Ev) (s : SimState) : Prop :=
  ∀ t, countsOf tr t = phaseCounts ((s.threads.get? t).getD .start)

/-- Semaphore occupancy equals the number of slot-holding threads and never
exceeds the configured capacity. -/
def SemaInv (s : SimState) : Prop :=
  s.sema = countHold s.threads ∧ s.sema ≤ s.maxActive

/-- The lines of the fake server's request stream encoding a list of bulk
elements, each a declared-size header line followed by a value line. -/
def encodeElems : List (Int × List Nat × List Nat) → List (List Nat)
  | [] => []
  | x :: l => x.2.1 :: x.2.2 :: encodeElems l

/-! ## Theorems -/

/-- `Option.getD false` of a capability result is true only when the
capability is present and reports true. -/
theorem temporaryCap_of_getD (e : GoErr) (h : (temporaryCap e).getD false = true) :
    temporaryCap e = some true := by
  rcases hc : temporaryCap e with _ | b
  · rw [hc] at h; simp at h
  · rw [hc] at h; simp only [Option.getD_some] at h; rw [h]

/-- An error whose `Temporary()` capability reports true is never the
`redis.ErrNil` sentinel (wrapped or not). -/
theorem temporaryCap_true_not_nil (e : GoErr) (h : temporaryCap e = some true) :
    errorsIsNil e = false := by
  induction e with
  | errNil => simp [temporaryCap] at h
  | errno n => simp [errorsIsNil]
  | syscallError sysName err ih =>
    simp only [temporaryCap, Option.some.injEq] at h
    simp only [errorsIsNil]
    exact ih (temporaryCap_of_getD err h)
  | opError op err ih =>
    simp only [errorsIsNil]
    cases err with
    | syscallError sysName inner =>
      simp only [temporaryCap, Option.some.injEq] at h
      have hs : temporaryCap (GoErr.syscallError sysName inner) = some true := by
        simp only [temporaryCap, Option.some.injEq]
        exact h
      exact ih hs
    | errNil => simp [temporaryCap] at h
    | errno n => simp [errorsIsNil]
    | opError op2 e2 =>
      simp only [temporaryCap, Option.some.injEq] at h
      exact ih (temporaryCap_of_getD _ h)
    | tempErr b msg => simp [errorsIsNil]
    | otherErr msg => simp [errorsIsNil]
  | tempErr b msg => simp [errorsIsNil]
  | otherErr msg => simp [errorsIsNil]

/-- An error satisfying `isConnError` is never the `redis.ErrNil` sentinel. -/
theorem isConnError_not_nil (e : GoErr) (h : isConnError e = true) :
    errorsIsNil e = false := by
  cases e with
  | errno n => simp [errorsIsNil]
  | syscallError sysName err =>
    cases err <;> simp_all [isConnError, errorsIsNil]
  | _ => simp_all [isConnError, errorsIsNil]

/-- Claim C5: `retryErr` classifies as `Retriable` exactly the errors that
expose a `Temporary()` capability returning true, and the network operation
errors (`*net.OpError`) whose underlying cause is a connection-reset or
connection-aborted errno after unwrapping at most one `*os.SyscallError`
layer (`isConnError`). -/
theorem retryErr_retriable_iff (e : GoErr) :
    (∃ x, retryErr e = .retriable x) ↔
      (temporaryCap e = some true ∨
        ∃ op inner, e = .opError op inner ∧ isConnError inner = true) := by
  constructor
  · rintro ⟨x, hx⟩
    unfold retryErr at hx
    by_cases hnil : errorsIsNil e
    · simp [hnil] at hx
    · simp only [hnil, Bool.false_eq_true, if_false] at hx
      by_cases htmp : (temporaryCap e).getD false
      · left
        rcases hc : temporaryCap e with _ | b
        · rw [hc] at htmp; simp at htmp
        · rw [hc] at htmp; simp only [Option.getD_some] at htmp
          rw [htmp]
      · simp only [htmp, Bool.false_eq_true, if_false] at hx
        cases e with
        | opError op inner =>
          right
          refine ⟨op, inner, rfl, ?_⟩
          by_cases hconn : isConnError inner
          · exact hconn
          · simp [hconn] at hx
        | _ => simp_all
  · rintro (htmp | ⟨op, inner, rfl, hconn⟩)
    · have hnil := temporaryCap_true_not_nil e htmp
      refine ⟨e, ?_⟩
      unfold retryErr
      simp [hnil, htmp]
    · have hnil : errorsIsNil (GoErr.opError op inner) = false := by
        simpa [errorsIsNil] using isConnError_not_nil inner hconn
      refine ⟨.opError op inner, ?_⟩
      unfold retryErr
      by_cases htmp : (temporaryCap (GoErr.opError op inner)).getD false
      · simp [hnil, htmp]
      · simp [hnil, htmp, hconn]

/-- Witness for C5: a read `*net.OpError` wrapping errno 104 (ECONNRESET) is
classified `Retriable`. -/
theorem retryErr_retriable_iff_witness :
    ∃ x, retryErr (.opError "read" (.errno 104)) = .retriable x :=
  (retryErr_retriable_iff _).mpr (Or.inr ⟨"read", .errno 104, rfl, by decide⟩)

/-- Claim C6: the backend's key-absent signal (`redis.ErrNil`, possibly under
unwrappable layers) maps to the distinguished `NotFound` sentinel, and every
error that is neither the key-absent signal nor classified `Retriable` is
returned to the caller unchanged. -/
theorem retryErr_notFound_and_identity (e : GoErr) :
    (errorsIsNil e = true → retryErr e = .notFound (errorString e)) ∧
    (errorsIsNil e = false → (∀ x, retryErr e ≠ .retriable x) → retryErr e = .asIs e) := by
  constructor
  · intro hnil
    unfold retryErr
    simp [hnil]
  · intro hnil hnr
    unfold retryErr
    simp only [hnil, Bool.false_eq_true, if_false]
    by_cases htmp : (temporaryCap e).getD false
    · exfalso
      apply hnr e
      unfold retryErr
      simp [hnil, htmp]
    · simp only [htmp, Bool.false_eq_true, if_false]
      cases e with
      | opError op inner =>
        by_cases hconn : isConnError inner
        · exfalso
          apply hnr (.opError op inner)
          unfold retryErr
          simp [hnil, htmp, hconn]
        · simp [hconn]
      | _ => rfl

/-- Witness for C6: `redis.ErrNil` itself maps to `NotFound`, and a plain
protocol error is returned unchanged. -/
theorem retryErr_notFound_and_identity_witness :
    retryErr .errNil = .notFound (errorString .errNil) ∧
    retryErr (.otherErr "ERR wrong type") = .asIs (.otherErr "ERR wrong type") :=
  ⟨(retryErr_notFound_and_identity .errNil).1 (by decide),
   (retryErr_notFound_and_identity (.otherErr "ERR wrong type")).2 (by decide)
     (by intro x h; simp [retryErr, errorsIsNil, temporaryCap] at h)⟩

/-- The retry driver stops with `failed e` only on a non-retriable
classification: retriable errors are always retried (or turned into the
context's error at the deadline). -/
theorem retryDo_failed_not_retriable {α : Type} (op : Nat → Except RErr α)
    (i fuel : Nat) (e : RErr) (h : retryDo op i fuel = .error (.failed e)) :
    isRetriable e = false := by
  induction fuel generalizing i with
  | zero =>
    cases hop : op i with
    | ok v => simp [retryDo, hop] at h
    | error e2 =>
      simp only [retryDo, hop] at h
      by_cases hr : isRetriable e2
      · simp [hr] at h
      · simp only [hr, Bool.false_eq_true, if_false, Except.error.injEq,
          RetryFail.failed.injEq] at h
        rw [h] at hr
        simpa using hr
  | succ f ih =>
    cases hop : op i with
    | ok v => simp [retryDo, hop] at h
    | error e2 =>
      simp only [retryDo, hop] at h
      by_cases hr : isRetriable e2
      · simp only [hr, if_true] at h
        exact ih (i + 1) h
      · simp only [hr, Bool.false_eq_true, if_false, Except.error.injEq,
          RetryFail.failed.injEq] at h
        rw [h] at hr
        simpa using hr

/-- A successful retry loop returns the value of some successful attempt. -/
theorem retryDo_ok_exists {α : Type} (op : Nat → Except RErr α)
    (i fuel : Nat) (v : α) (h : retryDo op i fuel = .ok v) :
    ∃ j, op j = .ok v := by
  induction fuel generalizing i with
  | zero =>
    cases hop : op i with
    | ok w =>
      simp only [retryDo, hop, Except.ok.injEq] at h
      exact ⟨i, by rw [hop, h]⟩
    | error e2 =>
      simp only [retryDo, hop] at h
      by_cases hr : isRetriable e2 <;> simp [hr] at h
  | succ f ih =>
    cases hop : op i with
    | ok w =>
      simp only [retryDo, hop, Except.ok.injEq] at h
      exact ⟨i, by rw [hop, h]⟩
    | error e2 =>
      simp only [retryDo, hop] at h
      by_cases hr : isRetriable e2
      · simp only [hr, if_true] at h
        exact ih (i + 1) h
      · simp [hr] at h

/-- Claim C4: the caller of `Get`/`Put` only ever observes success, the
`NotFound` sentinel, or a fatal error; an error classified `Retriable`
(wrapped as `rpc.RetriableError`) is never returned — transient failures are
absorbed by the unlimited retry loop, bounded only by the caller's context. -/
theorem get_put_never_retriable (c : Client) (g : GetReq) (p : PutReq)
    (lease : LeaseResult) (respond : RedisCmd → Nat → Except GoErr (List Nat))
    (ctxBudget : Nat) (x : GoErr) :
    Client.Get c g lease respond ctxBudget ≠ .error (.classified (.retriable x)) ∧
    Client.Put c p lease respond ctxBudget ≠ .error (.classified (.retriable x)) := by
  constructor
  · intro h
    unfold Client.Get at h
    cases lease with
    | ctxErr => simp at h
    | poolErr e => simp at h
    | ok =>
      cases hr : retryDo (fun i =>
          match respond (.get (c.keyPrefix ++ g.key)) i with
          | .ok v => .ok v
          | .error e => .error (retryErr e)) 0 ctxBudget with
      | ok v => rw [hr] at h; simp at h
      | error f =>
        rw [hr] at h
        cases f with
        | ctxDone => simp at h
        | failed e =>
          simp only [Except.error.injEq, CErr.classified.injEq] at h
          have := retryDo_failed_not_retriable _ 0 ctxBudget e hr
          rw [h] at this
          simp [isRetriable] at this
  · intro h
    unfold Client.Put at h
    cases lease with
    | ctxErr => simp at h
    | poolErr e => simp at h
    | ok =>
      cases hr : retryDo (fun i =>
          match respond (.set (c.keyPrefix ++ p.kv.key) p.kv.value) i with
          | .ok _ => .ok ()
          | .error e => .error (retryErr e)) 0 ctxBudget with
      | ok v => rw [hr] at h; simp at h
      | error f =>
        rw [hr] at h
        cases f with
        | ctxDone => simp at h
        | failed e =>
          simp only [Except.error.injEq, CErr.classified.injEq] at h
          have := retryDo_failed_not_retriable _ 0 ctxBudget e hr
          rw [h] at this
          simp [isRetriable] at this

/-- Witness for C4: with a backend that always reports a temporary error and
a context that allows no backoff, both calls surface the context's error,
not a `RetriableError`. -/
theorem get_put_never_retriable_witness :
    Client.Get ⟨"px:"⟩ ⟨"k"⟩ .ok (fun _ _ => .error (.tempErr true "i/o timeout")) 0 ≠
      .error (.classified (.retriable (.tempErr true "i/o timeout"))) ∧
    Client.Put ⟨"px:"⟩ ⟨⟨"k", [1]⟩⟩ .ok (fun _ _ => .error (.tempErr true "i/o timeout")) 0 ≠
      .error (.classified (.retriable (.tempErr true "i/o timeout"))) :=
  get_put_never_retriable ⟨"px:"⟩ ⟨"k"⟩ ⟨⟨"k", [1]⟩⟩ .ok
    (fun _ _ => .error (.tempErr true "i/o timeout")) 0 (.tempErr true "i/o timeout")

/-- Claim C8: every successful `Get` sends the configured prefix concatenated
with the requested key to the backend, returns the original un-prefixed key
with the backend's reply bytes verbatim, and always sets `InMemory` to
true. -/
theorem get_success_shape (c : Client) (g : GetReq) (lease : LeaseResult)
    (respond : RedisCmd → Nat → Except GoErr (List Nat)) (ctxBudget : Nat)
    (resp : GetResp) (h : Client.Get c g lease respond ctxBudget = .ok resp) :
    resp.inMemory = true ∧ resp.kv.key = g.key ∧
    ∃ i, respond (.get (c.keyPrefix ++ g.key)) i = .ok resp.kv.value := by
  unfold Client.Get at h
  cases lease with
  | ctxErr => simp at h
  | poolErr e => simp at h
  | ok =>
    cases hr : retryDo (fun i =>
        match respond (.get (c.keyPrefix ++ g.key)) i with
        | .ok v => .ok v
        | .error e => .error (retryErr e)) 0 ctxBudget with
    | error f => rw [hr] at h; cases f <;> simp at h
    | ok v =>
      rw [hr] at h
      simp only [Except.ok.injEq] at h
      obtain ⟨j, hj⟩ := retryDo_ok_exists _ 0 ctxBudget v hr
      refine ⟨by rw [← h], by rw [← h], j, ?_⟩
      cases hresp : respond (.get (c.keyPrefix ++ g.key)) j with
      | ok w =>
        simp only [hresp, Except.ok.injEq] at hj
        rw [hj, ← h]
      | error e2 =>
        simp only [hresp] at hj
        simp at hj

/-- Witness for C8: a backend answering `[7, 8]` yields
`GetResp(kv: (key, [7, 8]), inMemory: true)`. -/
theorem get_success_shape_witness :
    (⟨⟨"k", [7, 8]⟩, true⟩ : GetResp).inMemory = true ∧
    (⟨⟨"k", [7, 8]⟩, true⟩ : GetResp).kv.key = "k" ∧
    ∃ i, (fun (_ : RedisCmd) (_ : Nat) => (.ok [7, 8] : Except GoErr (List Nat)))
      (.get ("px:" ++ "k")) i = .ok (⟨⟨"k", [7, 8]⟩, true⟩ : GetResp).kv.value :=
  get_success_shape ⟨"px:"⟩ ⟨"k"⟩ .ok (fun _ _ => .ok [7, 8]) 0 ⟨⟨"k", [7, 8]⟩, true⟩ rfl

/-- Element loop on a well-formed stream of declared-size/value line pairs:
if every declared size matches its value line, the loop consumes exactly the
encoded lines with no error; if some declared size differs, it fails. -/
theorem readBulkElems_spec (elems : List (Int × List Nat × List Nat))
    (acc : List Nat) (rest : List (List Nat))
    (hhdr : ∀ x ∈ elems, (x.2.1).head? = some 36 ∧ goAtoi (x.2.1).tail = some x.1) :
    ((∀ x ∈ elems, x.1 = ((x.2.2).length : Int)) →
      (readBulkElems (encodeElems elems ++ rest) acc elems.length).err = none ∧
      (readBulkElems (encodeElems elems ++ rest) acc elems.length).rest = rest) ∧
    ((∃ x ∈ elems, x.1 ≠ ((x.2.2).length : Int)) →
      (readBulkElems (encodeElems elems ++ rest) acc elems.length).err ≠ none) := by
  induction elems generalizing acc with
  | nil =>
    constructor
    · intro _
      simp [encodeElems, readBulkElems]
    · rintro ⟨x, hx, _⟩
      simp at hx
  | cons x elems ih =>
    obtain ⟨hd36, hdsz⟩ := hhdr x (by simp)
    have hhdr2 : ∀ y ∈ elems, (y.2.1).head? = some 36 ∧ goAtoi (y.2.1).tail = some y.1 :=
      fun y hy => hhdr y (by simp [hy])
    constructor
    · intro hall
      have hx : x.1 = ((x.2.2).length : Int) := hall x (by simp)
      simp only [encodeElems, List.length_cons, List.cons_append]
      simp [readBulkElems, hd36, hdsz, hx]
      exact (ih _ hhdr2).1 (fun y hy => hall y (by simp [hy]))
    · rintro ⟨y, hy, hne⟩
      rcases List.mem_cons.mp hy with heq | hy2
      · subst heq
        by_cases hx : y.1 = ((y.2.2).length : Int)
        · exact absurd hx hne
        · simp only [encodeElems, List.length_cons, List.cons_append]
          simp [readBulkElems, hd36, hdsz, hx]
      · by_cases hx : x.1 = ((x.2.2).length : Int)
        · simp only [encodeElems, List.length_cons, List.cons_append]
          simp [readBulkElems, hd36, hdsz, hx]
          exact (ih _ hhdr2).2 ⟨y, hy2, hne⟩
        · simp only [encodeElems, List.length_cons, List.cons_append]
          simp [readBulkElems, hd36, hdsz, hx]

/-- Claim C9: the fake server's request parser, on an array request declaring
`N` bulk elements, consumes exactly the `N` header/value line pairs — no error
and nothing beyond them — when every declared length matches its value line;
it returns an error whenever some declared length differs from the actual
length of the line that follows; and a single non-array line is consumed as
is without error. -/
theorem readRequest_spec (elems : List (Int × List Nat × List Nat))
    (h0 : List Nat) (rest : List (List Nat))
    (hstar : h0.head? = some 42)
    (hcount : goAtoi h0.tail = some (elems.length : Int))
    (hhdr : ∀ x ∈ elems, (x.2.1).head? = some 36 ∧ goAtoi (x.2.1).tail = some x.1) :
    ((∀ x ∈ elems, x.1 = ((x.2.2).length : Int)) →
      (readRequest (h0 :: (encodeElems elems ++ rest))).err = none ∧
      (readRequest (h0 :: (encodeElems elems ++ rest))).rest = rest) ∧
    ((∃ x ∈ elems, x.1 ≠ ((x.2.2).length : Int)) →
      (readRequest (h0 :: (encodeElems elems ++ rest))).err ≠ none) ∧
    (∀ (l : List Nat) (rs : List (List Nat)), l.head? ≠ some 42 →
      readRequest (l :: rs) = ⟨l, none, rs⟩) := by
  have hmain := readBulkElems_spec elems h0 rest hhdr
  have hred : readRequest (h0 :: (encodeElems elems ++ rest)) =
      readBulkElems (encodeElems elems ++ rest) h0 elems.length := by
    simp [readRequest, hstar, hcount]
  refine ⟨fun hall => ?_, fun hex => ?_, fun l rs hl => ?_⟩
  · rw [hred]; exact hmain.1 hall
  · rw [hred]; exact hmain.2 hex
  · simp [readRequest, hl]

/-- Witness for C9: the framing of `GET key` — star header declaring two
elements, each a dollar-size header and a matching value line — parses with
no error, consuming exactly those five lines. -/
theorem readRequest_spec_witness :
    (readRequest ([42, 50] ::
      (encodeElems [((3 : Int), [36, 51], [71, 69, 84]),
                    ((3 : Int), [36, 51], [107, 101, 121])] ++ [[99]]))).err = none ∧
    (readRequest ([42, 50] ::
      (encodeElems [((3 : Int), [36, 51], [71, 69, 84]),
                    ((3 : Int), [36, 51], [107, 101, 121])] ++ [[99]]))).rest = [[99]] :=
  (readRequest_spec [((3 : Int), [36, 51], [71, 69, 84]), ((3 : Int), [36, 51], [107, 101, 121])]
    [42, 50] [[99]] (by decide) (by decide) (by decide)).1 (by decide)

/-! ### Infrastructure for the transition system -/

theorem countEv_append (e : Ev) (tr : List Ev) (x : Ev) :
    countEv e (tr ++ [x]) = countEv e tr + (if x = e then 1 else 0) := by
  induction tr with
  | nil => simp [countEv]
  | cons y tr ih => simp [countEv, ih]; omega

theorem countHold_set (l : List Phase) (t : Nat) (old new : Phase)
    (h : l.get? t = some old) :
    countHold (l.set t new) + (if holdsSlot old then 1 else 0) =
      countHold l + (if holdsSlot new then 1 else 0) := by
  induction l generalizing t with
  | nil => simp [List.get?] at h
  | cons p l ih =>
    cases t with
    | zero =>
      simp only [List.get?] at h
      obtain rfl := Option.some.inj h
      simp only [List.set, countHold]
      cases hp : holdsSlot p <;> cases hn : holdsSlot new <;> simp [hp, hn] <;> omega
    | succ t2 =>
      simp only [List.get?] at h
      simp only [List.set, countHold]
      have := ih t2 h
      omega

theorem countHold_pos (l : List Phase) (t : Nat) (p : Phase)
    (h : l.get? t = some p) (hp : holdsSlot p = true) : 1 ≤ countHold l := by
  have h2 := countHold_set l t p .start h
  have hs : holdsSlot Phase.start = false := rfl
  rw [hp, hs] at h2
  simp at h2
  omega

theorem countHold_eq_zero (l : List Phase) (h : ∀ p ∈ l, holdsSlot p = false) :
    countHold l = 0 := by
  induction l with
  | nil => rfl
  | cons p l ih =>
    simp only [countHold, h p (by simp), Bool.false_eq_true, if_false, Nat.zero_add]
    exact ih (fun q hq => h q (by simp [hq]))

theorem countHold_replicate (n : Nat) : countHold (List.replicate n .start) = 0 := by
  induction n with
  | zero => rfl
  | succ k ih => simp [List.replicate, countHold, holdsSlot, ih]

theorem replicate_start_getD (n t : Nat) :
    ((List.replicate n Phase.start).get? t).getD .start = .start := by
  induction n generalizing t with
  | zero => simp [List.get?]
  | succ k ih =>
    cases t with
    | zero => simp [List.replicate]
    | succ t2 => simpa [List.replicate] using ih t2

theorem run_singleton (s : SimState) (e : Ev) : run s [e] = step s e := by
  cases hstep : step s e <;> simp [run, hstep]

theorem run_append (s : SimState) (tr1 tr2 : List Ev) :
    run s (tr1 ++ tr2) = (run s tr1).bind (fun s2 => run s2 tr2) := by
  induction tr1 generalizing s with
  | nil => simp [run]
  | cons e tr ih =>
    simp only [List.cons_append, run]
    cases step s e with
    | none => simp
    | some s2 => simp [ih s2]

theorem run_take (s s1 : SimState) (tr : List Ev) (k : Nat)
    (h : run s tr = some s1) : ∃ s2, run s (tr.take k) = some s2 := by
  have hsplit : tr = tr.take k ++ tr.drop k := (List.take_append_drop k tr).symm
  rw [hsplit, run_append] at h
  cases hr : run s (tr.take k) with
  | none => rw [hr] at h; simp at h
  | some s2 => exact ⟨s2, rfl⟩

theorem countsOf_append (tr : List Ev) (e : Ev) (t : Nat) :
    countsOf (tr ++ [e]) t =
      if evThread e = t then bump e (countsOf tr t) else countsOf tr t := by
  cases e with
  | acquireSlot t0 =>
    by_cases ht : t0 = t
    · subst ht; simp [countsOf, countEv_append, bump, evThread]
    · simp [countsOf, countEv_append, bump, evThread, ht]
  | ctxDone t0 =>
    by_cases ht : t0 = t
    · subst ht; simp [countsOf, countEv_append, bump, evThread]
    · simp [countsOf, countEv_append, bump, evThread, ht]
  | leaseOk t0 =>
    by_cases ht : t0 = t
    · subst ht; simp [countsOf, countEv_append, bump, evThread]
    · simp [countsOf, countEv_append, bump, evThread, ht]
  | leaseErr t0 =>
    by_cases ht : t0 = t
    · subst ht; simp [countsOf, countEv_append, bump, evThread]
    · simp [countsOf, countEv_append, bump, evThread, ht]
  | leaseErrRelease t0 =>
    by_cases ht : t0 = t
    · subst ht; simp [countsOf, countEv_append, bump, evThread]
    · simp [countsOf, countEv_append, bump, evThread, ht]
  | releaseSlot t0 =>
    by_cases ht : t0 = t
    · subst ht; simp [countsOf, countEv_append, bump, evThread]
    · simp [countsOf, countEv_append, bump, evThread, ht]
  | connClose t0 =>
    by_cases ht : t0 = t
    · subst ht; simp [countsOf, countEv_append, bump, evThread]
    · simp [countsOf, countEv_append, bump, evThread, ht]

/-- Inversion of a single step: it rewrites exactly one thread's phase, the
per-phase expected counts advance by the event's bump, the semaphore changes
exactly by the difference of slot-holding status, and the semaphore can only
grow under the admission guard. -/
theorem step_inv (s s1 : SimState) (e : Ev)
    (hsema : s.sema = countHold s.threads) (h : step s e = some s1) :
    s1.maxActive = s.maxActive ∧
    ∃ old new, s.threads.get? (evThread e) = some old ∧
      s1.threads = s.threads.set (evThread e) new ∧
      phaseCounts new = bump e (phaseCounts old) ∧
      s1.sema + (if holdsSlot old then 1 else 0) =
        s.sema + (if holdsSlot new then 1 else 0) ∧
      (s.sema < s.maxActive ∨ s1.sema ≤ s.sema) := by
  cases e with
  | acquireSlot t =>
    simp only [step] at h
    cases hg : s.threads.get? t with
    | none => rw [hg] at h; simp at h
    | some p =>
      rw [hg] at h
      cases p with
      | start =>
        by_cases hlt : s.sema < s.maxActive
        · rw [if_pos hlt] at h
          obtain rfl := Option.some.inj h
          exact ⟨rfl, .start, .gotSlot, hg, rfl, rfl, by simp [holdsSlot], Or.inl hlt⟩
        · rw [if_neg hlt] at h; simp at h
      | gotSlot => simp at h
      | leaseFailed => simp at h
      | working => simp at h
      | slotFreed => simp at h
      | finished o => simp at h
  | ctxDone t =>
    simp only [step] at h
    cases hg : s.threads.get? t with
    | none => rw [hg] at h; simp at h
    | some p =>
      rw [hg] at h
      cases p with
      | start =>
        obtain rfl := Option.some.inj h
        exact ⟨rfl, .start, .finished .ctxCancel, hg, rfl, rfl, by simp [holdsSlot],
          Or.inr (Nat.le_refl _)⟩
      | gotSlot => simp at h
      | leaseFailed => simp at h
      | working => simp at h
      | slotFreed => simp at h
      | finished o => simp at h
  | leaseOk t =>
    simp only [step] at h
    cases hg : s.threads.get? t with
    | none => rw [hg] at h; simp at h
    | some p =>
      rw [hg] at h
      cases p with
      | gotSlot =>
        obtain rfl := Option.some.inj h
        exact ⟨rfl, .gotSlot, .working, hg, rfl, rfl, by simp [holdsSlot],
          Or.inr (Nat.le_refl _)⟩
      | start => simp at h
      | leaseFailed => simp at h
      | working => simp at h
      | slotFreed => simp at h
      | finished o => simp at h
  | leaseErr t =>
    simp only [step] at h
    cases hg : s.threads.get? t with
    | none => rw [hg] at h; simp at h
    | some p =>
      rw [hg] at h
      cases p with
      | gotSlot =>
        obtain rfl := Option.some.inj h
        exact ⟨rfl, .gotSlot, .leaseFailed, hg, rfl, rfl, by simp [holdsSlot],
          Or.inr (Nat.le_refl _)⟩
      | start => simp at h
      | leaseFailed => simp at h
      | working => simp at h
      | slotFreed => simp at h
      | finished o => simp at h
  | leaseErrRelease t =>
    simp only [step] at h
    cases hg : s.threads.get? t with
    | none => rw [hg] at h; simp at h
    | some p =>
      rw [hg] at h
      cases p with
      | leaseFailed =>
        obtain rfl := Option.some.inj h
        have hpos : 1 ≤ s.sema := by
          rw [hsema]; exact countHold_pos s.threads t .leaseFailed hg rfl
        refine ⟨rfl, .leaseFailed, .finished .leaseFail, hg, rfl, rfl, ?_, ?_⟩
        · simp only [holdsSlot, if_true, Bool.false_eq_true, if_false]
          omega
        · exact Or.inr (Nat.sub_le _ _)
      | start => simp at h
      | gotSlot => simp at h
      | working => simp at h
      | slotFreed => simp at h
      | finished o => simp at h
  | releaseSlot t =>
    simp only [step] at h
    cases hg : s.threads.get? t with
    | none => rw [hg] at h; simp at h
    | some p =>
      rw [hg] at h
      cases p with
      | working =>
        obtain rfl := Option.some.inj h
        have hpos : 1 ≤ s.sema := by
          rw [hsema]; exact countHold_pos s.threads t .working hg rfl
        refine ⟨rfl, .working, .slotFreed, hg, rfl, rfl, ?_, ?_⟩
        · simp only [holdsSlot, if_true, Bool.false_eq_true, if_false]
          omega
        · exact Or.inr (Nat.sub_le _ _)
      | start => simp at h
      | gotSlot => simp at h
      | leaseFailed => simp at h
      | slotFreed => simp at h
      | finished o => simp at h
  | connClose t =>
    simp only [step] at h
    cases hg : s.threads.get? t with
    | none => rw [hg] at h; simp at h
    | some p =>
      rw [hg] at h
      cases p with
      | slotFreed =>
        obtain rfl := Option.some.inj h
        exact ⟨rfl, .slotFreed, .finished .completed, hg, rfl, rfl, by simp [holdsSlot],
          Or.inr (Nat.le_refl _)⟩
      | start => simp at h
      | gotSlot => simp at h
      | leaseFailed => simp at h
      | working => simp at h
      | finished o => simp at h

/-- Every reachable state of a client built with `MaxActiveConns = m` keeps
the semaphore equal to the number of slot-holding threads, bounded by `m`,
and its per-thread event counts agree with each thread's phase. -/
theorem run_inv (m n : Nat) (tr : List Ev) (s1 : SimState)
    (h : run (initState m n) tr = some s1) :
    (SemaInv s1 ∧ s1.maxActive = m) ∧ MInv tr s1 := by
  induction tr using List.reverseRecOn generalizing s1 with
  | nil =>
    simp only [run] at h
    obtain rfl := Option.some.inj h
    refine ⟨⟨⟨?_, ?_⟩, rfl⟩, ?_⟩
    · simp [initState, countHold_replicate]
    · simp [initState]
    · intro t
      simp only [initState, replicate_start_getD]
      rfl
  | append_singleton tr e ih =>
    rw [run_append] at h
    cases hr : run (initState m n) tr with
    | none => rw [hr] at h; simp at h
    | some s2 =>
      rw [hr] at h
      simp only [Option.some_bind, run_singleton] at h
      obtain ⟨⟨⟨hsema, hmax⟩, hma⟩, hminv⟩ := ih s2 hr
      obtain ⟨hma1, old, new, hg, hset, hbump, hdelta, hgrow⟩ := step_inv s2 s1 e hsema h
      have hlt : evThread e < s2.threads.length := by
        obtain ⟨hlt, _⟩ := List.get?_eq_some.mp hg
        exact hlt
      constructor
      · constructor
        · constructor
          · have hcs := countHold_set s2.threads (evThread e) old new hg
            rw [← hset] at hcs
            rw [hsema] at hdelta
            omega
          · rcases hgrow with hl | hl
            · rw [hma1]
              have : s1.sema + (if holdsSlot old then 1 else 0) ≤
                  s2.sema + (if holdsSlot new then 1 else 0) := le_of_eq hdelta
              have hnew1 : (if holdsSlot new then 1 else 0) ≤ 1 := by
                split <;> omega
              omega
            · rw [hma1]; omega
        · rw [hma1, hma]
      · intro t
        rw [countsOf_append]
        by_cases ht : evThread e = t
        · subst ht
          rw [if_pos rfl, hminv (evThread e), hg]
          simp only [Option.getD_some]
          rw [← hbump, hset]
          rw [List.get?_set_eq_of_lt new hlt]
          rfl
        · rw [if_neg ht, hminv t, hset, List.get?_set_ne new s2.threads ht]

/-- Per-thread counts in any reachable execution are the ones dictated by the
thread's phase. -/
theorem counts_fields (m n : Nat) (tr : List Ev) (s1 : SimState)
    (h : run (initState m n) tr = some s1) (t : Nat) :
    ∃ ph, (s1.threads.get? t).getD .start = ph ∧
      countEv (.acquireSlot t) tr = (phaseCounts ph).acq ∧
      countEv (.ctxDone t) tr = (phaseCounts ph).ctxd ∧
      countEv (.leaseOk t) tr = (phaseCounts ph).lok ∧
      countEv (.leaseErr t) tr = (phaseCounts ph).lerr ∧
      countEv (.leaseErrRelease t) tr = (phaseCounts ph).lrel ∧
      countEv (.releaseSlot t) tr = (phaseCounts ph).srel ∧
      countEv (.connClose t) tr = (phaseCounts ph).cclose := by
  have hc := (run_inv m n tr s1 h).2 t
  exact ⟨_, rfl, congrArg TCounts.acq hc, congrArg TCounts.ctxd hc, congrArg TCounts.lok hc,
    congrArg TCounts.lerr hc, congrArg TCounts.lrel hc, congrArg TCounts.srel hc,
    congrArg TCounts.cclose hc⟩

/-- Claim C1: at every point of every interleaving of `Get`/`Put` calls on a
client configured with `MaxActiveConns = m`, the number of admission slots in
use — operations past the gate that have not yet released it — is at most
`m`, and so is the semaphore occupancy. -/
theorem sema_bounded (m n : Nat) (tr : List Ev) (s1 : SimState)
    (h : run (initState m n) tr = some s1) :
    s1.sema ≤ m ∧ countHold s1.threads ≤ m := by
  obtain ⟨⟨⟨hsema, hmax⟩, hma⟩, _⟩ := run_inv m n tr s1 h
  rw [hma] at hmax
  exact ⟨hmax, by rw [← hsema]; exact hmax⟩

/-- Witness for C1: two threads, one holding a slot. -/
theorem sema_bounded_witness :
    (⟨2, 1, [Phase.working, Phase.start]⟩ : SimState).sema ≤ 2 ∧
    countHold (⟨2, 1, [Phase.working, Phase.start]⟩ : SimState).threads ≤ 2 :=
  sema_bounded 2 2 [.acquireSlot 0, .leaseOk 0] ⟨2, 1, [Phase.working, Phase.start]⟩ (by decide)

/-- Claim C2: per call, the pool lease is acquired at most once and closed at
most once — never more often than acquired — and once the call has finished
(on any exit path: success, lease failure, or context cancellation) the close
count equals the lease count and the slot-release count equals the
slot-acquire count: released exactly once when acquired, never released
twice, never leaked. -/
theorem lease_release_exactly_once (m n : Nat) (tr : List Ev) (s1 : SimState)
    (h : run (initState m n) tr = some s1) (t : Nat) :
    countEv (.leaseOk t) tr ≤ 1 ∧
    countEv (.connClose t) tr ≤ countEv (.leaseOk t) tr ∧
    countEv (.acquireSlot t) tr ≤ 1 ∧
    countEv (.releaseSlot t) tr + countEv (.leaseErrRelease t) tr ≤
      countEv (.acquireSlot t) tr ∧
    (∀ o, s1.threads.get? t = some (.finished o) →
      countEv (.connClose t) tr = countEv (.leaseOk t) tr ∧
      countEv (.releaseSlot t) tr + countEv (.leaseErrRelease t) tr =
        countEv (.acquireSlot t) tr) := by
  obtain ⟨ph, hph, hacq, hctxd, hlok, hlerr, hlrel, hsrel, hcclose⟩ :=
    counts_fields m n tr s1 h t
  rw [hacq, hlok, hlrel, hsrel, hcclose]
  refine ⟨?_, ?_, ?_, ?_, ?_⟩
  · rcases ph with _ | _ | _ | _ | _ | o
    · decide
    · decide
    · decide
    · decide
    · decide
    · rcases o <;> decide
  · rcases ph with _ | _ | _ | _ | _ | o
    · decide
    · decide
    · decide
    · decide
    · decide
    · rcases o <;> decide
  · rcases ph with _ | _ | _ | _ | _ | o
    · decide
    · decide
    · decide
    · decide
    · decide
    · rcases o <;> decide
  · rcases ph with _ | _ | _ | _ | _ | o
    · decide
    · decide
    · decide
    · decide
    · decide
    · rcases o <;> decide
  · intro o ho
    rw [ho] at hph
    simp only [Option.getD_some] at hph
    subst hph
    rcases o <;> decide

/-- Witness for C2: a completed call with one lease and one close. -/
theorem lease_release_exactly_once_witness :
    countEv (.connClose 0) [Ev.acquireSlot 0, .leaseOk 0, .releaseSlot 0, .connClose 0] =
      countEv (.leaseOk 0) [Ev.acquireSlot 0, .leaseOk 0, .releaseSlot 0, .connClose 0] ∧
    countEv (.releaseSlot 0) [Ev.acquireSlot 0, .leaseOk 0, .releaseSlot 0, .connClose 0] +
      countEv (.leaseErrRelease 0) [Ev.acquireSlot 0, .leaseOk 0, .releaseSlot 0, .connClose 0] =
      countEv (.acquireSlot 0) [Ev.acquireSlot 0, .leaseOk 0, .releaseSlot 0, .connClose 0] :=
  (lease_release_exactly_once 1 1 [.acquireSlot 0, .leaseOk 0, .releaseSlot 0, .connClose 0]
    ⟨1, 0, [.finished .completed]⟩ (by decide) 0).2.2.2.2 .completed (by decide)

/-- Claim C3: admission can proceed only while a slot is free
(`sema < maxActive`); the context-done branch finishes the call with the
context's error and leaves the slot count unchanged; and a thread at the gate
with a free slot can proceed. -/
theorem acquire_blocks_or_ctx (s s1 : SimState) (t : Nat) :
    (step s (.acquireSlot t) = some s1 → s.sema < s.maxActive) ∧
    (step s (.ctxDone t) = some s1 →
      s1.sema = s.sema ∧ s1.threads.get? t = some (.finished .ctxCancel)) ∧
    (s.threads.get? t = some .start → s.sema < s.maxActive →
      (step s (.acquireSlot t)).isSome = true) := by
  refine ⟨?_, ?_, ?_⟩
  · intro h
    simp only [step] at h
    cases hg : s.threads.get? t with
    | none => rw [hg] at h; simp at h
    | some p =>
      rw [hg] at h
      cases p with
      | start =>
        by_cases hlt : s.sema < s.maxActive
        · exact hlt
        · rw [if_neg hlt] at h; simp at h
      | gotSlot => simp at h
      | leaseFailed => simp at h
      | working => simp at h
      | slotFreed => simp at h
      | finished o => simp at h
  · intro h
    simp only [step] at h
    cases hg : s.threads.get? t with
    | none => rw [hg] at h; simp at h
    | some p =>
      rw [hg] at h
      cases p with
      | start =>
        obtain rfl := Option.some.inj h
        obtain ⟨hlt, _⟩ := List.get?_eq_some.mp hg
        exact ⟨rfl, List.get?_set_eq_of_lt _ hlt⟩
      | gotSlot => simp at h
      | leaseFailed => simp at h
      | working => simp at h
      | slotFreed => simp at h
      | finished o => simp at h
  · intro hg hlt
    simp only [step]
    rw [hg]
    simp [hlt]

/-- Witness for C3: a cancelled wait finishes with the context's error and an
unchanged semaphore. -/
theorem acquire_blocks_or_ctx_witness :
    (⟨1, 0, [Phase.finished .ctxCancel]⟩ : SimState).sema =
      (⟨1, 0, [Phase.start]⟩ : SimState).sema ∧
    (⟨1, 0, [Phase.finished .ctxCancel]⟩ : SimState).threads.get? 0 =
      some (.finished .ctxCancel) :=
  (acquire_blocks_or_ctx ⟨1, 0, [Phase.start]⟩ ⟨1, 0, [Phase.finished .ctxCancel]⟩ 0).2.1
    (by decide)

/-- Counterexample to claim C7 as stated: it is not the case that in every
execution the admission slot is released after the connection lease is
released — `activeConn.Close` receives from the semaphore first and only
then closes the pooled connection, so the slot release strictly precedes the
connection close. -/
theorem slot_release_order_counterexample :
    ¬ (∀ (m n : Nat) (tr : List Ev) (s1 : SimState),
        run (initState m n) tr = some s1 → ∀ t,
          (∀ i j, tr.get? i = some (.leaseOk t) →
            tr.get? j = some (.acquireSlot t) → j < i) ∧
          (∀ i j, tr.get? i = some (.releaseSlot t) →
            tr.get? j = some (.connClose t) → j < i)) := by
  intro hcl
  have hord := (hcl 1 1 [.acquireSlot 0, .leaseOk 0, .releaseSlot 0, .connClose 0]
    ⟨1, 0, [.finished .completed]⟩ (by decide) 0).2
  have h32 := hord 2 3 (by decide) (by decide)
  exact absurd h32 (by decide)

/-- Claim C7 (amended): in every prefix of every execution, per thread, the
pool's lease call (`pool.GetContext` returning, successfully or not) happens
only after the admission slot was acquired; and the pooled connection is
closed only after the admission slot was released — the slot is released
before, not after, the connection lease is returned to the pool. -/
theorem slot_gate_ordering (m n : Nat) (tr : List Ev) (s1 : SimState)
    (h : run (initState m n) tr = some s1) (t k : Nat) :
    countEv (.leaseOk t) (tr.take k) + countEv (.leaseErr t) (tr.take k) ≤
      countEv (.acquireSlot t) (tr.take k) ∧
    countEv (.connClose t) (tr.take k) ≤ countEv (.releaseSlot t) (tr.take k) := by
  obtain ⟨s2, h2⟩ := run_take (initState m n) s1 tr k h
  obtain ⟨ph, hph, hacq, hctxd, hlok, hlerr, hlrel, hsrel, hcclose⟩ :=
    counts_fields m n (tr.take k) s2 h2 t
  rw [hacq, hlok, hlerr, hsrel, hcclose]
  constructor
  · rcases ph with _ | _ | _ | _ | _ | o
    · decide
    · decide
    · decide
    · decide
    · decide
    · rcases o <;> decide
  · rcases ph with _ | _ | _ | _ | _ | o
    · decide
    · decide
    · decide
    · decide
    · decide
    · rcases o <;> decide

/-- Witness for C7 (amended): the two-event prefix of a completed call. -/
theorem slot_gate_ordering_witness :
    countEv (.leaseOk 0)
        ([Ev.acquireSlot 0, .leaseOk 0, .releaseSlot 0, .connClose 0].take 2) +
      countEv (.leaseErr 0)
        ([Ev.acquireSlot 0, .leaseOk 0, .releaseSlot 0, .connClose 0].take 2) ≤
      countEv (.acquireSlot 0)
        ([Ev.acquireSlot 0, .leaseOk 0, .releaseSlot 0, .connClose 0].take 2) ∧
    countEv (.connClose 0)
        ([Ev.acquireSlot 0, .leaseOk 0, .releaseSlot 0, .connClose 0].take 2) ≤
      countEv (.releaseSlot 0)
        ([Ev.acquireSlot 0, .leaseOk 0, .releaseSlot 0, .connClose 0].take 2) :=
  slot_gate_ordering 1 1 [.acquireSlot 0, .leaseOk 0, .releaseSlot 0, .connClose 0]
    ⟨1, 0, [.finished .completed]⟩ (by decide) 0 2

/-- Claim C10: a call that fails at the pool's lease step releases its
admission slot before returning — its acquire and release counts are both
one — and a state whose threads all stopped holding slots has semaphore
occupancy zero, so a waiting thread can acquire again. -/
theorem lease_failure_no_slot_leak (m n : Nat) (tr : List Ev) (s1 : SimState)
    (h : run (initState m n) tr = some s1) :
    (∀ t, s1.threads.get? t = some (.finished .leaseFail) →
      countEv (.leaseErrRelease t) tr = 1 ∧ countEv (.acquireSlot t) tr = 1) ∧
    ((∀ p ∈ s1.threads, holdsSlot p = false) → s1.sema = 0) ∧
    (∀ u, 0 < m → (∀ p ∈ s1.threads, holdsSlot p = false) →
      s1.threads.get? u = some .start → (step s1 (.acquireSlot u)).isSome = true) := by
  obtain ⟨⟨⟨hsema, hmax⟩, hma⟩, _⟩ := run_inv m n tr s1 h
  refine ⟨?_, ?_, ?_⟩
  · intro t ht
    obtain ⟨ph, hph, hacq, hctxd, hlok, hlerr, hlrel, hsrel, hcclose⟩ :=
      counts_fields m n tr s1 h t
    rw [ht] at hph
    simp only [Option.getD_some] at hph
    subst hph
    rw [hlrel, hacq]
    decide
  · intro hall
    rw [hsema]
    exact countHold_eq_zero s1.threads hall
  · intro u hm hall hg
    have h0 : s1.sema = 0 := by
      rw [hsema]; exact countHold_eq_zero s1.threads hall
    simp only [step]
    rw [hg]
    have hlt : s1.sema < s1.maxActive := by rw [h0, hma]; exact hm
    simp [hlt]

/-- Witness for C10: after a lease failure the slot is free again and the
second thread's acquire is enabled. -/
theorem lease_failure_no_slot_leak_witness :
    (countEv (.leaseErrRelease 0) [Ev.acquireSlot 0, .leaseErr 0, .leaseErrRelease 0] = 1 ∧
      countEv (.acquireSlot 0) [Ev.acquireSlot 0, .leaseErr 0, .leaseErrRelease 0] = 1) ∧
    (step ⟨1, 0, [Phase.finished .leaseFail, Phase.start]⟩ (.acquireSlot 1)).isSome = true :=
  ⟨(lease_failure_no_slot_leak 1 2 [.acquireSlot 0, .leaseErr 0, .leaseErrRelease 0]
      ⟨1, 0, [.finished .leaseFail, .start]⟩ (by decide)).1 0 (by decide),
   (lease_failure_no_slot_leak 1 2 [.acquireSlot 0, .leaseErr 0, .leaseErrRelease 0]
      ⟨1, 0, [.finished .leaseFail, .start]⟩ (by decide)).2.2 1 (by decide) (by decide)
      (by decide)⟩

end GomaRedis
